import Mathlib

/-!
# Verification of the Sudoku propagation-and-search solver

Shallow embedding of `src/sudoku.py`.  The Python program represents the
9×9 board as a sequence of 81 characters (`'0'` blank, `'1'`–`'9'` fixed)
and the working "markup" as a list of 81 candidate strings.  We embed digit
characters as natural numbers (`0` = blank, `1`–`9` = digits) and candidate
strings as lists of naturals.  Python's in-place mutation of the markup is
embedded as explicit state threading, and `None` results as an explicit
failure constructor.  Where the Python source iterates over a `set`
(whose iteration order is unspecified, hash-randomized in CPython), the
embedding uses ascending order as a canonical choice; none of the theorems
below except where explicitly noted depend on that choice.

Recursion in `eliminate`/`assign` and in `solve` is embedded with an
explicit fuel parameter; fuel exhaustion is a distinguished `timeout`
result (distinct from both success and failure, so that a theorem about a
`fail` or `ok` result can never be an artifact of insufficient fuel).
Sufficient-fuel theorems show the fuel is never exhausted at the bounds
used by the top-level definitions.
-/

/-- The nine digits 1..9, ascending (the Python `fullset`, canonically ordered). -/
def digits19 : List Nat := [1, 2, 3, 4, 5, 6, 7, 8, 9]

/-- `rows` from the source: offsets of the 9 rows. -/
def rowsL : List (List Nat) :=
  (List.range 9).map (fun r => (List.range 9).map (fun c => 9 * r + c))

/-- `cols` from the source: offsets of the 9 columns. -/
def colsL : List (List Nat) :=
  (List.range 9).map (fun c => (List.range 9).map (fun r => 9 * r + c))

/-- `boxes` from the source: offsets of the 9 boxes, whose top-left corners
are 0, 3, 6, 27, 30, 33, 54, 57, 60. -/
def boxesL : List (List Nat) :=
  (List.range 9).map (fun b =>
    let s := 27 * (b / 3) + 3 * (b % 3)
    [s, s + 1, s + 2, s + 9, s + 10, s + 11, s + 18, s + 19, s + 20])

/-- All 27 units (9 rows, 9 columns, 9 boxes). -/
def allUnitsL : List (List Nat) := rowsL ++ colsL ++ boxesL

/-- `units[i]` from the source: the row, column and box containing square `i`. -/
def unitsL (i : Nat) : List (List Nat) :=
  [rowsL.getD (i / 9) [], colsL.getD (i % 9) [],
   boxesL.getD (3 * (i / 27) + (i % 9) / 3) []]

/-- `aoe[i]` from the source: all squares sharing a row, column or box with
square `i`, excluding `i` itself.  The source stores this as a `set`; the
embedding lists the members in ascending order. -/
def aoeL (i : Nat) : List Nat :=
  (List.range 81).filter (fun j => j ≠ i && (unitsL i).any (fun u => j ∈ u))

/-- A markup: one candidate list per square (the source uses one candidate
string per square). -/
abbrev Markup : Type := List (List Nat)

/-- Candidate list of square `i` (`m[i]` in the source). -/
def cellOf (m : Markup) (i : Nat) : List Nat := m.getD i []

/-- Replace the candidate list of square `i` (`m[i] = w` in the source). -/
def setCell (m : Markup) (i : Nat) (s : List Nat) : Markup := m.set i s

/-- `markup` from the source: blank squares receive every digit not fixed
among their peers; fixed squares receive their single digit. -/
def markup (grid : List Nat) : Markup :=
  (List.range 81).map (fun i =>
    if grid.getD i 0 = 0 then
      digits19.filter (fun d => (aoeL i).all (fun j => grid.getD j 0 ≠ d))
    else [grid.getD i 0])

/-- `solved` from the source: every candidate list has exactly one entry. -/
def solved (m : Markup) : Bool := m.all (fun s => s.length = 1)

/-- Total number of candidates over the 81 board positions (termination
measure for the propagation cascade). -/
def totalLen (m : Markup) : Nat := ∑ k ∈ Finset.range 81, (cellOf m k).length

/-- Number of undetermined squares among the 81 board positions. -/
def undetCount (m : Markup) : Nat :=
  (List.range 81).countP (fun k => (cellOf m k).length != 1)

/-- Result of `eliminate`/`assign`: the updated markup, `fail` for the
Python `None`, or `timeout` when the fuel is exhausted (never reachable at
the fuel bounds used by `eliminate` and `assign` below). -/
inductive PRes : Type
  | timeout : PRes
  | fail : PRes
  | ok (m : Markup) : PRes
deriving DecidableEq

/-- The naked-single cascade of `eliminate`: the single remaining value of
a square is eliminated from each of its peers in turn
(`all(eliminate(m, j, w) for j in aoe[i])` in the source).  The
elimination step `e` is passed as a parameter; the solver instantiates it
with `eliminateF f`. -/
def elimPeers (e : Markup → Nat → Nat → PRes) : Markup → List Nat → Nat → PRes
  | m, [], _ => .ok m
  | m, j :: js, u =>
    match e m j u with
    | .timeout => .timeout
    | .fail => .fail
    | .ok m2 => elimPeers e m2 js u

/-- The elimination fold inside `assign`
(`all(eliminate(m, i, w) for w in m[i] if w != v)` in the source; the list
of values is the snapshot taken before any elimination runs). -/
def assignFold (e : Markup → Nat → Nat → PRes) : Markup → Nat → List Nat → PRes
  | m, _, [] => .ok m
  | m, i, w :: ws =>
    match e m i w with
    | .timeout => .timeout
    | .fail => .fail
    | .ok m2 => assignFold e m2 i ws

/-- `assign` from the source: force square `i` to value `v` by eliminating
every other current candidate of `i`, one at a time. -/
def assignW (e : Markup → Nat → Nat → PRes) (m : Markup) (i v : Nat) : PRes :=
  assignFold e m i ((cellOf m i).filter (fun w => w ≠ v))

/-- The hidden-single loop of `eliminate`: for each of the square's three
units, the eliminated value must still have a place; if it has exactly one
place, that place is assigned the value. -/
def unitsLoop (e : Markup → Nat → Nat → PRes) : Markup → List (List Nat) → Nat → PRes
  | m, [], _ => .ok m
  | m, u :: us, v =>
    match u.filter (fun j => v ∈ cellOf m j) with
    | [] => .fail
    | [p] =>
      match assignW e m p v with
      | .timeout => .timeout
      | .fail => .fail
      | .ok m2 => unitsLoop e m2 us v
    | _ :: _ :: _ => unitsLoop e m us v

/-- `eliminate` from the source: remove value `v` from square `i`, then
propagate naked singles (via `elimPeers`) and hidden singles (via
`unitsLoop`).  The fuel decreases at each actual removal, so recursion is
structural in the fuel. -/
def eliminateF : Nat → Markup → Nat → Nat → PRes
  | 0, _, _, _ => .timeout
  | f + 1, m, i, v =>
    if v ∈ cellOf m i then
      let w := (cellOf m i).filter (fun x => x ≠ v)
      let m1 := setCell m i w
      if w = [] then .fail
      else
        match (if w.length = 1 then elimPeers (eliminateF f) m1 (aoeL i) (w.headD 0)
               else .ok m1) with
        | .timeout => .timeout
        | .fail => .fail
        | .ok m2 => unitsLoop (eliminateF f) m2 (unitsL i) v
    else .ok m

/-- `assign` at fuel `f`: the fold of eliminations at the same fuel. -/
def assignF (f : Nat) (m : Markup) (i v : Nat) : PRes :=
  assignW (eliminateF f) m i v

/-- `eliminate` at a fuel bound large enough that the fuel is never
exhausted (see the no-timeout theorems below). -/
def eliminate (m : Markup) (i v : Nat) : PRes :=
  eliminateF (totalLen m + 1) m i v

/-- `assign` at a fuel bound large enough that the fuel is never
exhausted. -/
def assign (m : Markup) (i v : Nat) : PRes :=
  assignF (totalLen m + 1) m i v

/-- Result of `solve`: a markup, `fail` for the Python `None`, `crash` for
the Python `NameError` raised when the minimum-candidate scan binds no
square, or `timeout` when the search fuel is exhausted (never reachable at
the fuel bounds established below). -/
inductive SRes : Type
  | timeout : SRes
  | crash : SRes
  | fail : SRes
  | found (m : Markup) : SRes
deriving DecidableEq

/-- The minimum-candidate scan of `solve`.  Mirrors the source loop

    min_len = 9
    for i, s in enumerate(m):
        if 1 < len(s) < min_len:
            min_i = i
            if len(s) == 2: break
            min_len = len(s)

`none` means `min_i` was never bound (the loop found no square with
between 2 and `min_len - 1` candidates), in which case the source raises
`NameError` at the subsequent use of `min_i`. -/
def scanMRV : List (List Nat) → Nat → Nat → Option Nat → Option Nat
  | [], _, _, best => best
  | s :: rest, idx, minLen, best =>
    if 1 < s.length ∧ s.length < minLen then
      if s.length = 2 then some idx
      else scanMRV rest (idx + 1) s.length (some idx)
    else scanMRV rest (idx + 1) minLen best

/-- The branch loop of `solve`: for each candidate value of the chosen
square, assign it on a fresh copy of the markup (copying is the identity
in the value semantics of the embedding) and recursively solve via `slv`;
the first `found` result is returned, `fail` moves on to the next value,
and a crash of the recursive call propagates. -/
def tryVals (slv : Option Markup → SRes) (m : Markup) (i : Nat) : List Nat → SRes
  | [] => .fail
  | v :: vs =>
    match assign m i v with
    | .timeout => .timeout
    | .fail => tryVals slv m i vs
    | .ok m2 =>
      match slv (some m2) with
      | .timeout => .timeout
      | .crash => .crash
      | .fail => tryVals slv m i vs
      | .found n => .found n

/-- `solve` from the source, with explicit search fuel.  A `none` input is
the Python `None` (`if not m: return None`, which also covers the empty
list).  The value ordering of the branch loop follows the candidate list
of the chosen square, as in the source. -/
def solveF : Nat → Option Markup → SRes
  | _, .none => .fail
  | 0, some _ => .timeout
  | f + 1, some m =>
    if m = [] then .fail
    else if solved m then .found m
    else
      match scanMRV m 0 9 none with
      | none => .crash
      | some i => tryVals (solveF f) m i (cellOf m i)

/-- `solve` from the source at a search-fuel bound large enough for every
81-square markup (the search depth is bounded by the number of
undetermined squares plus one; see the no-timeout theorem below). -/
def solve (om : Option Markup) : SRes := solveF 82 om

/-! ## Basic facts about the topology and the state operations -/

lemma mem_aoeL_lt {j i : Nat} (h : j ∈ aoeL i) : j < 81 :=
  List.mem_range.mp (List.mem_of_mem_filter h)

lemma mem_unitsL_lt : ∀ i < 81, ∀ u ∈ unitsL i, ∀ j ∈ u, j < 81 := by decide

lemma cellOf_setCell (i : Nat) (s : List Nat) :
    ∀ (m : Markup) (k : Nat),
      cellOf (setCell m i s) k = if i = k ∧ i < m.length then s else cellOf m k := by
  unfold cellOf setCell
  intro m
  induction m generalizing i s with
  | nil => intro k; simp
  | cons a as ih =>
    intro k
    cases i with
    | zero =>
      cases k <;> simp [List.set]
    | succ n =>
      cases k with
      | zero => simp [List.set]
      | succ l =>
        simp only [List.set, List.getD_cons_succ, List.length_cons]
        rw [ih n s l]
        by_cases h : n = l ∧ n < as.length
        · rw [if_pos h, if_pos ⟨by omega, by omega⟩]
        · rw [if_neg h, if_neg (by omega)]

lemma length_setCell (m : Markup) (i : Nat) (s : List Nat) :
    (setCell m i s).length = m.length := by
  unfold setCell; exact List.length_set m i s

lemma cellOf_eq_nil_of_le {m : Markup} {i : Nat} (h : m.length ≤ i) :
    cellOf m i = [] := by
  unfold cellOf
  exact List.getD_eq_default _ _ h

lemma lt_length_of_mem_cellOf {m : Markup} {i v : Nat} (h : v ∈ cellOf m i) :
    i < m.length := by
  by_contra hc
  rw [cellOf_eq_nil_of_le (by omega)] at h
  exact absurd h (List.not_mem_nil v)

/-- The pointwise relation maintained by successful propagation: same
number of squares, every candidate list a sublist of what it was, and no
non-empty candidate list becomes empty. -/
def Shrinks (m m2 : Markup) : Prop :=
  m2.length = m.length ∧
  (∀ k, List.Sublist (cellOf m2 k) (cellOf m k)) ∧
  (∀ k, cellOf m k ≠ [] → cellOf m2 k ≠ [])

lemma Shrinks.refl (m : Markup) : Shrinks m m :=
  ⟨rfl, fun _ => List.Sublist.refl _, fun _ h => h⟩

lemma Shrinks.trans {m1 m2 m3 : Markup} (h1 : Shrinks m1 m2) (h2 : Shrinks m2 m3) :
    Shrinks m1 m3 :=
  ⟨h2.1.trans h1.1,
   fun k => (h2.2.1 k).trans (h1.2.1 k),
   fun k h => h2.2.2 k (h1.2.2 k h)⟩

lemma shrinks_setCell_filter {m : Markup} {i : Nat} (p : Nat → Bool)
    (hne : (cellOf m i).filter p = [] → cellOf m i = []) :
    Shrinks m (setCell m i ((cellOf m i).filter p)) := by
  refine ⟨length_setCell m i _, fun k => ?_, fun k h => ?_⟩
  · rw [cellOf_setCell]
    split
    · next hk => rw [← hk.1]; exact List.filter_sublist _
    · exact List.Sublist.refl _
  · rw [cellOf_setCell]
    split
    · next hk =>
      intro hnil
      rw [← hk.1] at h
      exact h (hne hnil)
    · exact h

lemma Shrinks.subset {m m2 : Markup} (h : Shrinks m m2) (k : Nat) :
    cellOf m2 k ⊆ cellOf m k := (h.2.1 k).subset

lemma Shrinks.nodup {m m2 : Markup} (h : Shrinks m m2) (k : Nat)
    (hn : (cellOf m k).Nodup) : (cellOf m2 k).Nodup := (h.2.1 k).nodup hn

lemma Shrinks.totalLen_le {m m2 : Markup} (h : Shrinks m m2) :
    totalLen m2 ≤ totalLen m := by
  unfold totalLen
  exact Finset.sum_le_sum (fun k _ => (h.2.1 k).length_le)

/-! ## Successful propagation only shrinks the markup -/

lemma shrinks_assignFold_aux (f : Nat)
    (hE : ∀ m i v m2, eliminateF f m i v = .ok m2 → Shrinks m m2) :
    ∀ (l : List Nat) (m : Markup) (i : Nat) (m2 : Markup),
      assignFold (eliminateF f) m i l = .ok m2 → Shrinks m m2 := by
  intro l
  induction l with
  | nil =>
    intro m i m2 h
    simp only [assignFold, PRes.ok.injEq] at h
    rw [← h]; exact Shrinks.refl m
  | cons w ws ih =>
    intro m i m2 h
    simp only [assignFold] at h
    cases he : eliminateF f m i w with
    | timeout => rw [he] at h; exact absurd h (by simp)
    | fail => rw [he] at h; exact absurd h (by simp)
    | ok m1 => rw [he] at h; exact (hE m i w m1 he).trans (ih m1 i m2 h)

lemma shrinks_assignF_aux (f : Nat)
    (hE : ∀ m i v m2, eliminateF f m i v = .ok m2 → Shrinks m m2) :
    ∀ (m : Markup) (i v : Nat) (m2 : Markup),
      assignF f m i v = .ok m2 → Shrinks m m2 := by
  intro m i v m2 h
  simp only [assignF] at h
  exact shrinks_assignFold_aux f hE _ m i m2 h

lemma shrinks_unitsLoop_aux (f : Nat)
    (hE : ∀ m i v m2, eliminateF f m i v = .ok m2 → Shrinks m m2) :
    ∀ (l : List (List Nat)) (m : Markup) (v : Nat) (m2 : Markup),
      unitsLoop (eliminateF f) m l v = .ok m2 → Shrinks m m2 := by
  intro l
  induction l with
  | nil =>
    intro m v m2 h
    simp only [unitsLoop, PRes.ok.injEq] at h
    rw [← h]; exact Shrinks.refl m
  | cons u us ih =>
    intro m v m2 h
    simp only [unitsLoop] at h
    cases hp : u.filter (fun j => v ∈ cellOf m j) with
    | nil => rw [hp] at h; exact absurd h (by simp)
    | cons p ps =>
      cases ps with
      | nil =>
        rw [hp] at h
        simp only at h
        cases ha : assignW (eliminateF f) m p v with
        | timeout => rw [ha] at h; exact absurd h (by simp)
        | fail => rw [ha] at h; exact absurd h (by simp)
        | ok m1 =>
          rw [ha] at h
          exact (shrinks_assignF_aux f hE m p v m1 ha).trans (ih m1 v m2 h)
      | cons q qs =>
        rw [hp] at h
        simp only at h
        exact ih m v m2 h

lemma shrinks_elimPeers_aux (f : Nat)
    (hE : ∀ m i v m2, eliminateF f m i v = .ok m2 → Shrinks m m2) :
    ∀ (l : List Nat) (m : Markup) (u : Nat) (m2 : Markup),
      elimPeers (eliminateF f) m l u = .ok m2 → Shrinks m m2 := by
  intro l
  induction l with
  | nil =>
    intro m u m2 h
    simp only [elimPeers, PRes.ok.injEq] at h
    rw [← h]; exact Shrinks.refl m
  | cons j js ih =>
    intro m u m2 h
    simp only [elimPeers] at h
    cases he : eliminateF f m j u with
    | timeout => rw [he] at h; exact absurd h (by simp)
    | fail => rw [he] at h; exact absurd h (by simp)
    | ok m1 => rw [he] at h; exact (hE m j u m1 he).trans (ih m1 u m2 h)

lemma shrinks_eliminateF :
    ∀ (f : Nat) (m : Markup) (i v : Nat) (m2 : Markup),
      eliminateF f m i v = .ok m2 → Shrinks m m2 := by
  intro f
  induction f with
  | zero => intro m i v m2 h; exact absurd h (by simp [eliminateF])
  | succ f ih =>
    intro m i v m2 h
    rw [eliminateF] at h
    by_cases hv : v ∈ cellOf m i
    · rw [if_pos hv] at h
      simp only at h
      by_cases hnil : (cellOf m i).filter (fun x => x ≠ v) = []
      · rw [if_pos hnil] at h; exact absurd h (by simp)
      · rw [if_neg hnil] at h
        have hm1 : Shrinks m (setCell m i ((cellOf m i).filter (fun x => x ≠ v))) :=
          shrinks_setCell_filter _ (fun hx => absurd hx hnil)
        cases hx : (if ((cellOf m i).filter (fun x => x ≠ v)).length = 1 then
            elimPeers (eliminateF f) (setCell m i ((cellOf m i).filter (fun x => x ≠ v))) (aoeL i)
              (((cellOf m i).filter (fun x => x ≠ v)).headD 0)
          else .ok (setCell m i ((cellOf m i).filter (fun x => x ≠ v)))) with
        | timeout => rw [hx] at h; exact absurd h (by simp)
        | fail => rw [hx] at h; exact absurd h (by simp)
        | ok m3 =>
          rw [hx] at h
          have hm3 : Shrinks m m3 := by
            by_cases hlen : ((cellOf m i).filter (fun x => x ≠ v)).length = 1
            · rw [if_pos hlen] at hx
              exact hm1.trans (shrinks_elimPeers_aux f ih _ _ _ m3 hx)
            · rw [if_neg hlen] at hx
              simp only [PRes.ok.injEq] at hx
              rw [← hx]; exact hm1
          exact hm3.trans (shrinks_unitsLoop_aux f ih _ m3 v m2 h)
    · rw [if_neg hv] at h
      simp only [PRes.ok.injEq] at h
      rw [← h]; exact Shrinks.refl m

lemma shrinks_eliminate {m : Markup} {i v : Nat} {m2 : Markup}
    (h : eliminate m i v = .ok m2) : Shrinks m m2 :=
  shrinks_eliminateF _ m i v m2 h

lemma shrinks_assign {m : Markup} {i v : Nat} {m2 : Markup}
    (h : assign m i v = .ok m2) : Shrinks m m2 :=
  shrinks_assignF_aux _ (shrinks_eliminateF _) m i v m2 h

/-- A successful `eliminate` leaves the eliminated value absent from the
square's candidates. -/
lemma eliminateF_removes {f : Nat} {m : Markup} {i v : Nat} {m2 : Markup}
    (h : eliminateF f m i v = .ok m2) : v ∉ cellOf m2 i := by
  cases f with
  | zero => exact absurd h (by simp [eliminateF])
  | succ f =>
    rw [eliminateF] at h
    by_cases hv : v ∈ cellOf m i
    · rw [if_pos hv] at h
      simp only at h
      by_cases hnil : (cellOf m i).filter (fun x => x ≠ v) = []
      · rw [if_pos hnil] at h; exact absurd h (by simp)
      · rw [if_neg hnil] at h
        have hilt : i < m.length := lt_length_of_mem_cellOf hv
        have hm1 : cellOf (setCell m i ((cellOf m i).filter (fun x => x ≠ v))) i =
            (cellOf m i).filter (fun x => x ≠ v) := by
          rw [cellOf_setCell]; rw [if_pos ⟨rfl, hilt⟩]
        cases hx : (if ((cellOf m i).filter (fun x => x ≠ v)).length = 1 then
            elimPeers (eliminateF f) (setCell m i ((cellOf m i).filter (fun x => x ≠ v))) (aoeL i)
              (((cellOf m i).filter (fun x => x ≠ v)).headD 0)
          else .ok (setCell m i ((cellOf m i).filter (fun x => x ≠ v)))) with
        | timeout => rw [hx] at h; exact absurd h (by simp)
        | fail => rw [hx] at h; exact absurd h (by simp)
        | ok m3 =>
          rw [hx] at h
          have h3 : cellOf m3 i ⊆ (cellOf m i).filter (fun x => x ≠ v) := by
            by_cases hlen : ((cellOf m i).filter (fun x => x ≠ v)).length = 1
            · rw [if_pos hlen] at hx
              have := (shrinks_elimPeers_aux f (shrinks_eliminateF f) _ _ _ m3 hx).subset i
              rw [hm1] at this; exact this
            · rw [if_neg hlen] at hx
              simp only [PRes.ok.injEq] at hx
              rw [← hx, hm1]
              exact List.Subset.refl _
          have h2 : cellOf m2 i ⊆ (cellOf m i).filter (fun x => x ≠ v) :=
            fun x hx2 => h3 ((shrinks_unitsLoop_aux f (shrinks_eliminateF f) _ m3 v m2 h).subset i hx2)
          intro hvm
          have := h2 hvm
          simp only [List.mem_filter, decide_eq_true_eq] at this
          exact this.2 rfl
    · rw [if_neg hv] at h
      simp only [PRes.ok.injEq] at h
      rw [← h]; exact hv

/-- After a successful `assign` fold, none of the folded-over values
remains a candidate of the square. -/
lemma assignFold_removes :
    ∀ (f : Nat) (l : List Nat) (m : Markup) (i : Nat) (m2 : Markup),
      assignFold (eliminateF f) m i l = .ok m2 → ∀ w ∈ l, w ∉ cellOf m2 i := by
  intro f l
  induction l with
  | nil => intro m i m2 h w hw; exact absurd hw (List.not_mem_nil w)
  | cons w ws ih =>
    intro m i m2 h x hx
    simp only [assignFold] at h
    cases he : eliminateF f m i w with
    | timeout => rw [he] at h; exact absurd h (by simp)
    | fail => rw [he] at h; exact absurd h (by simp)
    | ok m1 =>
      rw [he] at h
      rcases List.mem_cons.mp hx with rfl | hxs
      · intro hmem
        exact eliminateF_removes he
          ((shrinks_assignFold_aux f (shrinks_eliminateF f) ws m1 i m2 h).subset i hmem)
      · exact ih m1 i m2 h x hxs

/-! ## Successful propagation never changes an already-determined square

A square whose candidate list is a singleton keeps exactly that singleton
through any successful `eliminate`/`assign`: the only way to remove its
value would empty the list, which is an immediate failure. -/

lemma singStay_assignFold_aux (k d f : Nat)
    (hE : ∀ m i v m2, eliminateF f m i v = .ok m2 → cellOf m k = [d] → cellOf m2 k = [d]) :
    ∀ (l : List Nat) (m : Markup) (i : Nat) (m2 : Markup),
      assignFold (eliminateF f) m i l = .ok m2 → cellOf m k = [d] → cellOf m2 k = [d] := by
  intro l
  induction l with
  | nil =>
    intro m i m2 h hk
    simp only [assignFold, PRes.ok.injEq] at h
    rw [← h]; exact hk
  | cons w ws ih =>
    intro m i m2 h hk
    simp only [assignFold] at h
    cases he : eliminateF f m i w with
    | timeout => rw [he] at h; exact absurd h (by simp)
    | fail => rw [he] at h; exact absurd h (by simp)
    | ok m1 => rw [he] at h; exact ih m1 i m2 h (hE m i w m1 he hk)

lemma singStay_unitsLoop_aux (k d f : Nat)
    (hE : ∀ m i v m2, eliminateF f m i v = .ok m2 → cellOf m k = [d] → cellOf m2 k = [d]) :
    ∀ (l : List (List Nat)) (m : Markup) (v : Nat) (m2 : Markup),
      unitsLoop (eliminateF f) m l v = .ok m2 → cellOf m k = [d] → cellOf m2 k = [d] := by
  intro l
  induction l with
  | nil =>
    intro m v m2 h hk
    simp only [unitsLoop, PRes.ok.injEq] at h
    rw [← h]; exact hk
  | cons u us ih =>
    intro m v m2 h hk
    simp only [unitsLoop] at h
    cases hp : u.filter (fun j => v ∈ cellOf m j) with
    | nil => rw [hp] at h; exact absurd h (by simp)
    | cons p ps =>
      cases ps with
      | nil =>
        rw [hp] at h
        simp only at h
        cases ha : assignW (eliminateF f) m p v with
        | timeout => rw [ha] at h; exact absurd h (by simp)
        | fail => rw [ha] at h; exact absurd h (by simp)
        | ok m1 =>
          rw [ha] at h
          have h1 : cellOf m1 k = [d] := by
            simp only [assignW] at ha
            exact singStay_assignFold_aux k d f hE _ m p m1 ha hk
          exact ih m1 v m2 h h1
      | cons q qs =>
        rw [hp] at h
        simp only at h
        exact ih m v m2 h hk

lemma singStay_elimPeers_aux (k d f : Nat)
    (hE : ∀ m i v m2, eliminateF f m i v = .ok m2 → cellOf m k = [d] → cellOf m2 k = [d]) :
    ∀ (l : List Nat) (m : Markup) (u : Nat) (m2 : Markup),
      elimPeers (eliminateF f) m l u = .ok m2 → cellOf m k = [d] → cellOf m2 k = [d] := by
  intro l
  induction l with
  | nil =>
    intro m u m2 h hk
    simp only [elimPeers, PRes.ok.injEq] at h
    rw [← h]; exact hk
  | cons j js ih =>
    intro m u m2 h hk
    simp only [elimPeers] at h
    cases he : eliminateF f m j u with
    | timeout => rw [he] at h; exact absurd h (by simp)
    | fail => rw [he] at h; exact absurd h (by simp)
    | ok m1 => rw [he] at h; exact ih m1 u m2 h (hE m j u m1 he hk)

lemma singStay_eliminateF (k d : Nat) :
    ∀ (f : Nat) (m : Markup) (i v : Nat) (m2 : Markup),
      eliminateF f m i v = .ok m2 → cellOf m k = [d] → cellOf m2 k = [d] := by
  intro f
  induction f with
  | zero => intro m i v m2 h hk; exact absurd h (by simp [eliminateF])
  | succ f ih =>
    intro m i v m2 h hk
    rw [eliminateF] at h
    by_cases hv : v ∈ cellOf m i
    · rw [if_pos hv] at h
      simp only at h
      by_cases hki : k = i
      · rw [← hki] at hv h
        rw [hk] at hv
        have hvd : v = d := by
          rcases List.mem_singleton.mp hv with rfl; rfl
        have hnil : (cellOf m k).filter (fun x => x ≠ v) = [] := by
          rw [hk, hvd]; simp
        rw [if_pos hnil] at h
        exact absurd h (by simp)
      · by_cases hnil : (cellOf m i).filter (fun x => x ≠ v) = []
        · rw [if_pos hnil] at h; exact absurd h (by simp)
        · rw [if_neg hnil] at h
          have hm1 : cellOf (setCell m i ((cellOf m i).filter (fun x => x ≠ v))) k = [d] := by
            rw [cellOf_setCell]
            rw [if_neg (fun hc => hki hc.1.symm)]
            exact hk
          cases hx : (if ((cellOf m i).filter (fun x => x ≠ v)).length = 1 then
              elimPeers (eliminateF f) (setCell m i ((cellOf m i).filter (fun x => x ≠ v))) (aoeL i)
                (((cellOf m i).filter (fun x => x ≠ v)).headD 0)
            else .ok (setCell m i ((cellOf m i).filter (fun x => x ≠ v)))) with
          | timeout => rw [hx] at h; exact absurd h (by simp)
          | fail => rw [hx] at h; exact absurd h (by simp)
          | ok m3 =>
            rw [hx] at h
            have hm3 : cellOf m3 k = [d] := by
              by_cases hlen : ((cellOf m i).filter (fun x => x ≠ v)).length = 1
              · rw [if_pos hlen] at hx
                exact singStay_elimPeers_aux k d f ih _ _ _ m3 hx hm1
              · rw [if_neg hlen] at hx
                simp only [PRes.ok.injEq] at hx
                rw [← hx]; exact hm1
            exact singStay_unitsLoop_aux k d f ih _ m3 v m2 h hm3
    · rw [if_neg hv] at h
      simp only [PRes.ok.injEq] at h
      rw [← h]; exact hk

lemma singStay_assign {k d : Nat} {m : Markup} {i v : Nat} {m2 : Markup}
    (h : assign m i v = .ok m2) (hk : cellOf m k = [d]) : cellOf m2 k = [d] := by
  simp only [assign, assignF, assignW] at h
  exact singStay_assignFold_aux k d _ (singStay_eliminateF k d _) _ m i m2 h hk

/-! ## Preservation of the propagatedness invariant

`GOODP m P` states that whenever a square below 81 is determined to a
single value that is still a candidate of one of its peers, the pair is
licensed by `P`.  With `P` empty this says every determined square has had
its value eliminated from all its peers.  The naked-single cascade of
`eliminate` re-establishes the invariant whenever an elimination newly
determines a square, which is the heart of the solver's soundness. -/

def GOODP (m : Markup) (P : Nat → Nat → Prop) : Prop :=
  ∀ i d j, i < 81 → cellOf m i = [d] → j ∈ aoeL i → d ∈ cellOf m j → P i j

/-- Every determined square's value is absent from all its peers
(executable form). -/
def GOOD (m : Markup) : Prop :=
  ∀ i < 81, (cellOf m i).length = 1 → ∀ j ∈ aoeL i, (cellOf m i).headD 0 ∉ cellOf m j

instance (m : Markup) : Decidable (GOOD m) := by
  unfold GOOD; infer_instance

lemma eq_singleton_headD {l : List Nat} (h : l.length = 1) : l = [l.headD 0] := by
  cases l with
  | nil => simp at h
  | cons a t =>
    cases t with
    | nil => rfl
    | cons b t2 => simp at h

lemma GOOD_iff_GOODP (m : Markup) : GOOD m ↔ GOODP m (fun _ _ => False) := by
  constructor
  · intro hg i d j hi hcell hj hd
    have h1 : (cellOf m i).length = 1 := by rw [hcell]; rfl
    have := hg i hi h1 j hj
    rw [hcell] at this
    exact this hd
  · intro hg i hi h1 j hj hd
    exact hg i ((cellOf m i).headD 0) j hi (eq_singleton_headD h1) hj hd

lemma goodp_mono {m : Markup} {P Q : Nat → Nat → Prop}
    (hpq : ∀ a b, P a b → Q a b) (h : GOODP m P) : GOODP m Q :=
  fun i d j hi hc hj hd => hpq i j (h i d j hi hc hj hd)

lemma goodp_assignFold_aux (f : Nat)
    (hE : ∀ (P : Nat → Nat → Prop) m i v m2, GOODP m P →
      eliminateF f m i v = .ok m2 → GOODP m2 P) :
    ∀ (P : Nat → Nat → Prop) (l : List Nat) (m : Markup) (i : Nat) (m2 : Markup),
      GOODP m P → assignFold (eliminateF f) m i l = .ok m2 → GOODP m2 P := by
  intro P l
  induction l with
  | nil =>
    intro m i m2 hg h
    simp only [assignFold, PRes.ok.injEq] at h
    rw [← h]; exact hg
  | cons w ws ih =>
    intro m i m2 hg h
    simp only [assignFold] at h
    cases he : eliminateF f m i w with
    | timeout => rw [he] at h; exact absurd h (by simp)
    | fail => rw [he] at h; exact absurd h (by simp)
    | ok m1 => rw [he] at h; exact ih m1 i m2 (hE P m i w m1 hg he) h

lemma goodp_unitsLoop_aux (f : Nat)
    (hE : ∀ (P : Nat → Nat → Prop) m i v m2, GOODP m P →
      eliminateF f m i v = .ok m2 → GOODP m2 P) :
    ∀ (P : Nat → Nat → Prop) (l : List (List Nat)) (m : Markup) (v : Nat) (m2 : Markup),
      GOODP m P → unitsLoop (eliminateF f) m l v = .ok m2 → GOODP m2 P := by
  intro P l
  induction l with
  | nil =>
    intro m v m2 hg h
    simp only [unitsLoop, PRes.ok.injEq] at h
    rw [← h]; exact hg
  | cons u us ih =>
    intro m v m2 hg h
    simp only [unitsLoop] at h
    cases hp : u.filter (fun j => v ∈ cellOf m j) with
    | nil => rw [hp] at h; exact absurd h (by simp)
    | cons p ps =>
      cases ps with
      | nil =>
        rw [hp] at h
        simp only at h
        cases ha : assignW (eliminateF f) m p v with
        | timeout => rw [ha] at h; exact absurd h (by simp)
        | fail => rw [ha] at h; exact absurd h (by simp)
        | ok m1 =>
          rw [ha] at h
          have h1 : GOODP m1 P := by
            simp only [assignW] at ha
            exact goodp_assignFold_aux f hE P _ m p m1 hg ha
          exact ih m1 v m2 h1 h
      | cons q qs =>
        rw [hp] at h
        simp only at h
        exact ih m v m2 hg h

lemma goodp_elimPeers_aux (f : Nat)
    (hE : ∀ (P : Nat → Nat → Prop) m i v m2, GOODP m P →
      eliminateF f m i v = .ok m2 → GOODP m2 P) :
    ∀ (l : List Nat) (P : Nat → Nat → Prop) (m : Markup) (i0 u : Nat) (m2 : Markup),
      cellOf m i0 = [u] →
      GOODP m (fun a b => P a b ∨ (a = i0 ∧ b ∈ l)) →
      elimPeers (eliminateF f) m l u = .ok m2 → GOODP m2 P := by
  intro l
  induction l with
  | nil =>
    intro P m i0 u m2 hi0 hg h
    simp only [elimPeers, PRes.ok.injEq] at h
    rw [← h]
    exact goodp_mono (fun a b hab => by
      rcases hab with hp | hmem
      · exact hp
      · exact absurd hmem.2 (List.not_mem_nil b)) hg
  | cons j js ih =>
    intro P m i0 u m2 hi0 hg h
    simp only [elimPeers] at h
    cases he : eliminateF f m j u with
    | timeout => rw [he] at h; exact absurd h (by simp)
    | fail => rw [he] at h; exact absurd h (by simp)
    | ok m1 =>
      rw [he] at h
      have hg1 : GOODP m1 (fun a b => P a b ∨ (a = i0 ∧ b ∈ j :: js)) :=
        hE _ m j u m1 hg he
      have hi01 : cellOf m1 i0 = [u] := singStay_eliminateF i0 u f m j u m1 he hi0
      have hu1 : u ∉ cellOf m1 j := eliminateF_removes he
      have hg2 : GOODP m1 (fun a b => P a b ∨ (a = i0 ∧ b ∈ js)) := by
        intro a d b ha hcell hb hd
        rcases hg1 a d b ha hcell hb hd with hp | ⟨rfl, hbj⟩
        · exact Or.inl hp
        · rcases List.mem_cons.mp hbj with rfl | hbjs
          · rw [hi01] at hcell
            have hdu : d = u := by
              have := hcell.symm
              simp only [List.cons.injEq] at this
              exact this.1
            rw [hdu] at hd
            exact absurd hd hu1
          · exact Or.inr ⟨rfl, hbjs⟩
      exact ih P m1 i0 u m2 hi01 hg2 h

lemma goodp_eliminateF :
    ∀ (f : Nat) (P : Nat → Nat → Prop) (m : Markup) (i v : Nat) (m2 : Markup),
      GOODP m P → eliminateF f m i v = .ok m2 → GOODP m2 P := by
  intro f
  induction f with
  | zero => intro P m i v m2 _ h; exact absurd h (by simp [eliminateF])
  | succ f ih =>
    have ihE : ∀ (P : Nat → Nat → Prop) m i v m2, GOODP m P →
        eliminateF f m i v = .ok m2 → GOODP m2 P :=
      fun P m i v m2 hg h => ih P m i v m2 hg h
    intro P m i v m2 hg h
    rw [eliminateF] at h
    by_cases hv : v ∈ cellOf m i
    · rw [if_pos hv] at h
      simp only at h
      have hilt : i < m.length := lt_length_of_mem_cellOf hv
      by_cases hnil : (cellOf m i).filter (fun x => x ≠ v) = []
      · rw [if_pos hnil] at h; exact absurd h (by simp)
      · rw [if_neg hnil] at h
        have hm1cell : ∀ k, cellOf (setCell m i ((cellOf m i).filter (fun x => x ≠ v))) k =
            if i = k then (cellOf m i).filter (fun x => x ≠ v) else cellOf m k := by
          intro k
          rw [cellOf_setCell]
          by_cases hik : i = k
          · rw [if_pos ⟨hik, hilt⟩, if_pos hik]
          · rw [if_neg (fun hc => hik hc.1), if_neg hik]
        cases hx : (if ((cellOf m i).filter (fun x => x ≠ v)).length = 1 then
            elimPeers (eliminateF f) (setCell m i ((cellOf m i).filter (fun x => x ≠ v))) (aoeL i)
              (((cellOf m i).filter (fun x => x ≠ v)).headD 0)
          else .ok (setCell m i ((cellOf m i).filter (fun x => x ≠ v)))) with
        | timeout => rw [hx] at h; exact absurd h (by simp)
        | fail => rw [hx] at h; exact absurd h (by simp)
        | ok m3 =>
          rw [hx] at h
          have hm3 : GOODP m3 P := by
            by_cases hlen : ((cellOf m i).filter (fun x => x ≠ v)).length = 1
            · rw [if_pos hlen] at hx
              have hsing : cellOf (setCell m i ((cellOf m i).filter (fun x => x ≠ v))) i =
                  [((cellOf m i).filter (fun x => x ≠ v)).headD 0] := by
                rw [hm1cell i, if_pos rfl]
                exact eq_singleton_headD hlen
              have hgm1 : GOODP (setCell m i ((cellOf m i).filter (fun x => x ≠ v)))
                  (fun a b => P a b ∨ (a = i ∧ b ∈ aoeL i)) := by
                intro a d b ha hcell hb hd
                rw [hm1cell a] at hcell
                rw [hm1cell b] at hd
                by_cases hia : i = a
                · exact Or.inr ⟨hia.symm, by rw [hia]; exact hb⟩
                · rw [if_neg hia] at hcell
                  have hdm : d ∈ cellOf m b := by
                    by_cases hib : i = b
                    · rw [if_pos hib] at hd
                      rw [← hib]
                      exact List.mem_of_mem_filter hd
                    · rw [if_neg hib] at hd; exact hd
                  exact Or.inl (hg a d b ha hcell hb hdm)
              exact goodp_elimPeers_aux f ihE (aoeL i) P _ i
                (((cellOf m i).filter (fun x => x ≠ v)).headD 0) m3 hsing hgm1 hx
            · rw [if_neg hlen] at hx
              simp only [PRes.ok.injEq] at hx
              rw [← hx]
              intro a d b ha hcell hb hd
              rw [hm1cell a] at hcell
              rw [hm1cell b] at hd
              by_cases hia : i = a
              · rw [if_pos hia] at hcell
                rw [hcell] at hlen
                simp at hlen
              · rw [if_neg hia] at hcell
                have hdm : d ∈ cellOf m b := by
                  by_cases hib : i = b
                  · rw [if_pos hib] at hd
                    rw [← hib]
                    exact List.mem_of_mem_filter hd
                  · rw [if_neg hib] at hd; exact hd
                exact hg a d b ha hcell hb hdm
          exact goodp_unitsLoop_aux f ihE P _ m3 v m2 hm3 h
    · rw [if_neg hv] at h
      simp only [PRes.ok.injEq] at h
      rw [← h]; exact hg

lemma goodp_assign {P : Nat → Nat → Prop} {m : Markup} {i v : Nat} {m2 : Markup}
    (hg : GOODP m P) (h : assign m i v = .ok m2) : GOODP m2 P := by
  simp only [assign, assignF, assignW] at h
  exact goodp_assignFold_aux _ (goodp_eliminateF _) P _ m i m2 hg h

/-! ## The propagation fuel is never exhausted

Each actual removal of a candidate consumes one unit of fuel, so fuel
exceeding the total number of candidates suffices: `eliminate` and
`assign` as defined above never return `timeout` on boards of at most 81
squares.  This is the termination argument for the mutually recursive
propagation cascade of the source. -/

lemma filter_ne_length_lt {l : List Nat} {v : Nat} (hv : v ∈ l) :
    (l.filter (fun x => x ≠ v)).length < l.length := by
  refine Nat.lt_of_le_of_ne (List.length_filter_le _ l) (fun he => ?_)
  have := List.filter_length_eq_length.mp he v hv
  simp at this

lemma totalLen_setCell_filter_lt {m : Markup} {i v : Nat}
    (h81 : m.length ≤ 81) (hv : v ∈ cellOf m i) :
    totalLen (setCell m i ((cellOf m i).filter (fun x => x ≠ v))) < totalLen m := by
  have hilt : i < m.length := lt_length_of_mem_cellOf hv
  unfold totalLen
  apply Finset.sum_lt_sum
  · intro k _
    rw [cellOf_setCell]
    split
    · next hk => rw [← hk.1]; exact List.length_filter_le _ _
    · exact le_refl _
  · refine ⟨i, Finset.mem_range.mpr (by omega), ?_⟩
    rw [cellOf_setCell, if_pos ⟨rfl, hilt⟩]
    exact filter_ne_length_lt hv

lemma nt_assignFold_aux (f : Nat)
    (hEnt : ∀ mi iv vv, mi.length ≤ 81 → totalLen mi < f → eliminateF f mi iv vv ≠ .timeout) :
    ∀ (l : List Nat) (m : Markup) (i : Nat),
      m.length ≤ 81 → totalLen m < f → assignFold (eliminateF f) m i l ≠ .timeout := by
  intro l
  induction l with
  | nil => intro m i _ _; simp [assignFold]
  | cons w ws ih =>
    intro m i h81 hf
    simp only [assignFold]
    cases he : eliminateF f m i w with
    | timeout => exact absurd he (hEnt m i w h81 hf)
    | fail => simp
    | ok m1 =>
      have hs := shrinks_eliminateF f m i w m1 he
      exact ih m1 i (by rw [hs.1]; exact h81) (lt_of_le_of_lt hs.totalLen_le hf)

lemma nt_unitsLoop_aux (f : Nat)
    (hEnt : ∀ mi iv vv, mi.length ≤ 81 → totalLen mi < f → eliminateF f mi iv vv ≠ .timeout) :
    ∀ (l : List (List Nat)) (m : Markup) (v : Nat),
      m.length ≤ 81 → totalLen m < f → unitsLoop (eliminateF f) m l v ≠ .timeout := by
  intro l
  induction l with
  | nil => intro m v _ _; simp [unitsLoop]
  | cons u us ih =>
    intro m v h81 hf
    simp only [unitsLoop]
    cases hp : u.filter (fun j => v ∈ cellOf m j) with
    | nil => simp
    | cons p ps =>
      cases ps with
      | nil =>
        simp only
        cases ha : assignW (eliminateF f) m p v with
        | timeout =>
          exfalso
          simp only [assignW] at ha
          exact absurd ha (nt_assignFold_aux f hEnt _ m p h81 hf)
        | fail => simp
        | ok m1 =>
          have hs : Shrinks m m1 := by
            simp only [assignW] at ha
            exact shrinks_assignFold_aux f (shrinks_eliminateF f) _ m p m1 ha
          exact ih m1 v (by rw [hs.1]; exact h81) (lt_of_le_of_lt hs.totalLen_le hf)
      | cons q qs =>
        simp only
        exact ih m v h81 hf

lemma nt_elimPeers_aux (f : Nat)
    (hEnt : ∀ mi iv vv, mi.length ≤ 81 → totalLen mi < f → eliminateF f mi iv vv ≠ .timeout) :
    ∀ (l : List Nat) (m : Markup) (u : Nat),
      m.length ≤ 81 → totalLen m < f → elimPeers (eliminateF f) m l u ≠ .timeout := by
  intro l
  induction l with
  | nil => intro m u _ _; simp [elimPeers]
  | cons j js ih =>
    intro m u h81 hf
    simp only [elimPeers]
    cases he : eliminateF f m j u with
    | timeout => exact absurd he (hEnt m j u h81 hf)
    | fail => simp
    | ok m1 =>
      have hs := shrinks_eliminateF f m j u m1 he
      exact ih m1 u (by rw [hs.1]; exact h81) (lt_of_le_of_lt hs.totalLen_le hf)

lemma nt_eliminateF :
    ∀ (f : Nat) (m : Markup) (i v : Nat),
      m.length ≤ 81 → totalLen m < f → eliminateF f m i v ≠ .timeout := by
  intro f
  induction f with
  | zero => intro m i v _ hf; exact absurd hf (by omega)
  | succ f ih =>
    intro m i v h81 hf
    rw [eliminateF]
    by_cases hv : v ∈ cellOf m i
    · rw [if_pos hv]
      simp only
      by_cases hnil : (cellOf m i).filter (fun x => x ≠ v) = []
      · rw [if_pos hnil]; simp
      · rw [if_neg hnil]
        have hm1len : (setCell m i ((cellOf m i).filter (fun x => x ≠ v))).length ≤ 81 := by
          rw [length_setCell]; exact h81
        have hm1tot : totalLen (setCell m i ((cellOf m i).filter (fun x => x ≠ v))) < f := by
          have := totalLen_setCell_filter_lt h81 hv
          omega
        cases hx : (if ((cellOf m i).filter (fun x => x ≠ v)).length = 1 then
            elimPeers (eliminateF f) (setCell m i ((cellOf m i).filter (fun x => x ≠ v))) (aoeL i)
              (((cellOf m i).filter (fun x => x ≠ v)).headD 0)
          else .ok (setCell m i ((cellOf m i).filter (fun x => x ≠ v)))) with
        | timeout =>
          exfalso
          by_cases hlen : ((cellOf m i).filter (fun x => x ≠ v)).length = 1
          · rw [if_pos hlen] at hx
            exact absurd hx (nt_elimPeers_aux f ih _ _ _ hm1len hm1tot)
          · rw [if_neg hlen] at hx
            exact absurd hx (by simp)
        | fail => simp
        | ok m3 =>
          simp only
          have hs3 : Shrinks (setCell m i ((cellOf m i).filter (fun x => x ≠ v))) m3 := by
            by_cases hlen : ((cellOf m i).filter (fun x => x ≠ v)).length = 1
            · rw [if_pos hlen] at hx
              exact shrinks_elimPeers_aux f (shrinks_eliminateF f) _ _ _ m3 hx
            · rw [if_neg hlen] at hx
              simp only [PRes.ok.injEq] at hx
              rw [← hx]; exact Shrinks.refl _
          exact nt_unitsLoop_aux f ih _ m3 v
            (by rw [hs3.1]; exact hm1len) (lt_of_le_of_lt hs3.totalLen_le hm1tot)
    · rw [if_neg hv]; simp

/-- `eliminate` never exhausts its fuel on boards of at most 81 squares. -/
lemma eliminate_ne_timeout {m : Markup} (h81 : m.length ≤ 81) (i v : Nat) :
    eliminate m i v ≠ .timeout :=
  nt_eliminateF _ m i v h81 (Nat.lt_succ_self _)

/-- `assign` never exhausts its fuel on boards of at most 81 squares. -/
lemma assign_ne_timeout {m : Markup} (h81 : m.length ≤ 81) (i v : Nat) :
    assign m i v ≠ .timeout := by
  simp only [assign, assignF]
  exact nt_assignFold_aux _ (nt_eliminateF _) _ m i h81 (Nat.lt_succ_self _)

/-! ## A successful `assign` determines the square and strictly reduces
the number of undetermined squares -/

lemma eq_singleton_of_forall_eq {l : List Nat} {v : Nat}
    (hne : l ≠ []) (hnd : l.Nodup) (hall : ∀ x ∈ l, x = v) : l = [v] := by
  cases l with
  | nil => exact absurd rfl hne
  | cons a t =>
    have ha : a = v := hall a (List.mem_cons_self a t)
    cases t with
    | nil => rw [ha]
    | cons b t2 =>
      have hb : b = v := hall b (List.mem_cons_of_mem a (List.mem_cons_self b t2))
      exfalso
      rw [List.nodup_cons] at hnd
      exact hnd.1 (by rw [ha, ← hb]; exact List.mem_cons_self b t2)

/-- A successful `assign m i v` with `v` among the candidates of a
duplicate-free candidate list leaves square `i` determined to exactly
`[v]`. -/
lemma assign_determines {m : Markup} {i v : Nat} {m2 : Markup}
    (h : assign m i v = .ok m2) (hv : v ∈ cellOf m i)
    (hnd : (cellOf m i).Nodup) : cellOf m2 i = [v] := by
  have hs : Shrinks m m2 := shrinks_assign h
  have hrem : ∀ w ∈ (cellOf m i).filter (fun x => x ≠ v), w ∉ cellOf m2 i := by
    simp only [assign, assignF, assignW] at h
    exact assignFold_removes _ _ m i m2 h
  refine eq_singleton_of_forall_eq ?_ (hs.nodup i hnd) ?_
  · exact hs.2.2 i (fun hc => absurd (hc ▸ hv) (List.not_mem_nil v))
  · intro x hx
    by_contra hxv
    refine hrem x ?_ hx
    rw [List.mem_filter]
    exact ⟨hs.subset i hx, by simpa using hxv⟩

lemma countP_lt_of_pointwise {α : Type} (p q : α → Bool) :
    ∀ (l : List α),
      (∀ a ∈ l, p a = true → q a = true) →
      ∀ a0 ∈ l, p a0 = false → q a0 = true →
      l.countP p < l.countP q := by
  intro l
  induction l with
  | nil => intro _ a0 ha0; exact absurd ha0 (List.not_mem_nil a0)
  | cons a t ih =>
    intro hpq a0 ha0 hp0 hq0
    rw [List.countP_cons, List.countP_cons]
    rcases List.mem_cons.mp ha0 with rfl | ha0t
    · rw [hp0, hq0]
      have hle : t.countP p ≤ t.countP q :=
        List.countP_mono_left (fun x hx => hpq x (List.mem_cons_of_mem _ hx))
      simp only [Bool.false_eq_true, if_false, if_true]
      omega
    · have hlt : t.countP p < t.countP q :=
        ih (fun x hx => hpq x (List.mem_cons_of_mem _ hx)) a0 ha0t hp0 hq0
      have : (if p a = true then 1 else 0) ≤ (if q a = true then 1 else 0) := by
        by_cases hpa : p a = true
        · rw [if_pos hpa, if_pos (hpq a (List.mem_cons_self a t) hpa)]
        · rw [if_neg hpa]; omega
      omega

/-- A successful `assign` of a value to an undetermined square strictly
decreases the number of undetermined squares. -/
lemma undetCount_lt_of_assign {m : Markup} {i v : Nat} {m2 : Markup}
    (h : assign m i v = .ok m2) (hv : v ∈ cellOf m i)
    (hlen : 2 ≤ (cellOf m i).length) (hnd : (cellOf m i).Nodup)
    (hi : i < 81) : undetCount m2 < undetCount m := by
  unfold undetCount
  apply countP_lt_of_pointwise
  · intro k _ hk2
    by_contra hk1
    simp only [bne_iff_ne, ne_eq, not_not] at hk1
    have hsing : cellOf m k = [(cellOf m k).headD 0] := eq_singleton_headD hk1
    have := singStay_assign h hsing
    rw [this] at hk2
    simp at hk2
  · exact List.mem_range.mpr hi
  · have := assign_determines h hv hnd
    rw [this]
    simp
  · simp only [bne_iff_ne, ne_eq, decide_eq_true_eq]
    omega

/-! ## The minimum-candidate scan and the search recursion -/

lemma scanMRV_some :
    ∀ (l : List (List Nat)) (idx minLen : Nat) (best : Option Nat) (r : Nat),
      scanMRV l idx minLen best = some r →
      best = some r ∨ ∃ k, k < l.length ∧ r = idx + k ∧ 1 < (l.getD k []).length := by
  intro l
  induction l with
  | nil => intro idx minLen best r h; exact Or.inl (by simpa [scanMRV] using h)
  | cons s rest ih =>
    intro idx minLen best r h
    rw [scanMRV] at h
    by_cases hc : 1 < s.length ∧ s.length < minLen
    · rw [if_pos hc] at h
      by_cases h2 : s.length = 2
      · rw [if_pos h2] at h
        refine Or.inr ⟨0, by simp, ?_, ?_⟩
        · have : idx = r := by simpa using h
          omega
        · simpa using hc.1
      · rw [if_neg h2] at h
        rcases ih (idx + 1) s.length (some idx) r h with hb | ⟨k, hk, hr, hlen⟩
        · refine Or.inr ⟨0, by simp, ?_, by simpa using hc.1⟩
          have : idx = r := by simpa using hb
          omega
        · exact Or.inr ⟨k + 1, by simpa using hk, by omega, by simpa using hlen⟩
    · rw [if_neg hc] at h
      rcases ih (idx + 1) minLen best r h with hb | ⟨k, hk, hr, hlen⟩
      · exact Or.inl hb
      · exact Or.inr ⟨k + 1, by simpa using hk, by omega, by simpa using hlen⟩

/-- When the scan of `solve` selects a square, that square is a real board
position with at least two candidates. -/
lemma scanMRV_sound {m : Markup} {i : Nat}
    (h : scanMRV m 0 9 none = some i) :
    i < m.length ∧ 2 ≤ (cellOf m i).length := by
  rcases scanMRV_some m 0 9 none i h with hb | ⟨k, hk, hr, hlen⟩
  · exact absurd hb (by simp)
  · have : i = k := by omega
    rw [this]
    exact ⟨hk, by unfold cellOf; omega⟩

lemma solveF_found_bundle :
    ∀ (f : Nat) (m M : Markup),
      solveF f (some m) = .found M →
      solved M = true ∧ Shrinks m M ∧ (∀ P, GOODP m P → GOODP M P) := by
  intro f
  induction f with
  | zero => intro m M h; exact absurd h (by simp [solveF])
  | succ f ih =>
    have aux : ∀ (l : List Nat) (m : Markup) (i : Nat) (M : Markup),
        tryVals (solveF f) m i l = .found M →
        solved M = true ∧ Shrinks m M ∧ (∀ P, GOODP m P → GOODP M P) := by
      intro l
      induction l with
      | nil => intro m i M h; exact absurd h (by simp [tryVals])
      | cons v vs ihl =>
        intro m i M h
        rw [tryVals] at h
        cases ha : assign m i v with
        | timeout => rw [ha] at h; exact absurd h (by simp)
        | fail => rw [ha] at h; exact ihl m i M h
        | ok m2 =>
          rw [ha] at h
          have h2 : (match solveF f (some m2) with
              | SRes.timeout => SRes.timeout
              | SRes.crash => SRes.crash
              | SRes.fail => tryVals (solveF f) m i vs
              | SRes.found n => SRes.found n) = SRes.found M := h
          cases hs : solveF f (some m2) with
          | timeout => rw [hs] at h2; exact absurd h2 (by simp)
          | crash => rw [hs] at h2; exact absurd h2 (by simp)
          | fail => rw [hs] at h2; exact ihl m i M h2
          | found n =>
            rw [hs] at h2
            simp only [SRes.found.injEq] at h2
            rw [← h2]
            obtain ⟨hsolved, hshr, hgood⟩ := ih m2 n hs
            exact ⟨hsolved, (shrinks_assign ha).trans hshr,
              fun P hg => hgood P (goodp_assign hg ha)⟩
    intro m M h
    rw [solveF] at h
    by_cases hm : m = []
    · rw [if_pos hm] at h; exact absurd h (by simp)
    · rw [if_neg hm] at h
      by_cases hsv : solved m
      · rw [if_pos hsv] at h
        simp only [SRes.found.injEq] at h
        rw [← h]
        exact ⟨hsv, Shrinks.refl m, fun P hg => hg⟩
      · rw [if_neg hsv] at h
        cases hscan : scanMRV m 0 9 none with
        | none => rw [hscan] at h; exact absurd h (by simp)
        | some i => rw [hscan] at h; exact aux (cellOf m i) m i M h

/-- Any markup returned by the search is `solved` and a pointwise shrink
of the input markup. -/
lemma solve_found_bundle {m M : Markup} (h : solve (some m) = .found M) :
    solved M = true ∧ Shrinks m M ∧ (∀ P, GOODP m P → GOODP M P) :=
  solveF_found_bundle 82 m M h

/-- A determined square of the input markup is unchanged in any markup
returned by the search. -/
lemma solve_found_singStay {m M : Markup} {k d : Nat}
    (h : solve (some m) = .found M) (hk : cellOf m k = [d]) :
    cellOf M k = [d] := by
  obtain ⟨_, hshr, _⟩ := solve_found_bundle h
  have hsub := hshr.2.1 k
  rw [hk] at hsub
  have hne : cellOf M k ≠ [] := by
    have := hshr.2.2 k
    rw [hk] at this
    exact this (by simp)
  cases List.sublist_singleton.mp hsub with
  | inl h0 => exact absurd h0 hne
  | inr h1 => exact h1

lemma undetCount_le_81 (m : Markup) : undetCount m ≤ 81 := by
  unfold undetCount
  calc (List.range 81).countP _ ≤ (List.range 81).length := List.countP_le_length _
  _ = 81 := List.length_range 81

lemma nt_solveF :
    ∀ (f : Nat) (m : Markup),
      m.length = 81 → (∀ k < 81, (cellOf m k).Nodup) → undetCount m < f →
      solveF f (some m) ≠ .timeout := by
  intro f
  induction f with
  | zero => intro m _ _ hf; exact absurd hf (by omega)
  | succ f ih =>
    intro m h81 hnd hf
    rw [solveF]
    by_cases hm : m = []
    · rw [if_pos hm]; simp
    · rw [if_neg hm]
      by_cases hsv : solved m
      · rw [if_pos hsv]; simp
      · rw [if_neg hsv]
        cases hscan : scanMRV m 0 9 none with
        | none => simp
        | some i =>
          simp only
          obtain ⟨hilt, hige2⟩ := scanMRV_sound hscan
          have hi81 : i < 81 := by omega
          have aux : ∀ (l : List Nat), (∀ v ∈ l, v ∈ cellOf m i) →
              tryVals (solveF f) m i l ≠ .timeout := by
            intro l
            induction l with
            | nil => intro _; simp [tryVals]
            | cons v vs ihl =>
              intro hmem
              rw [tryVals]
              cases ha : assign m i v with
              | timeout =>
                exact absurd ha (assign_ne_timeout (by omega) i v)
              | fail =>
                simp only
                exact ihl (fun x hx => hmem x (List.mem_cons_of_mem _ hx))
              | ok m2 =>
                simp only
                have hdec : undetCount m2 < undetCount m :=
                  undetCount_lt_of_assign ha (hmem v (List.mem_cons_self v vs))
                    hige2 (hnd i hi81) hi81
                have hshr : Shrinks m m2 := shrinks_assign ha
                cases hs : solveF f (some m2) with
                | timeout =>
                  exact absurd hs (ih m2 (by rw [hshr.1]; exact h81)
                    (fun k hk => hshr.nodup k (hnd k hk)) (by omega))
                | crash => simp
                | fail =>
                  simp only
                  exact ihl (fun x hx => hmem x (List.mem_cons_of_mem _ hx))
                | found n => simp
          exact aux (cellOf m i) (fun v hv => hv)

/-- `solve` never exhausts its search fuel on an 81-square markup whose
candidate lists are duplicate-free. -/
lemma solve_ne_timeout {m : Markup} (h81 : m.length = 81)
    (hnd : ∀ k < 81, (cellOf m k).Nodup) : solve (some m) ≠ .timeout := by
  unfold solve
  exact nt_solveF 82 m h81 hnd (by have := undetCount_le_81 m; omega)

/-! ## Geometry facts and the soundness of a solved, propagated markup -/

lemma allUnits_len_nodup : ∀ u ∈ allUnitsL, u.length = 9 ∧ u.Nodup := by decide

lemma allUnits_mem_lt : ∀ u ∈ allUnitsL, ∀ j ∈ u, j < 81 := by decide

lemma allUnits_mem_unitsL : ∀ u ∈ allUnitsL, ∀ a ∈ u, u ∈ unitsL a := by decide

lemma mem_aoeL_of_sameUnit {u : List Nat} {a b : Nat}
    (hu : u ∈ allUnitsL) (ha : a ∈ u) (hb : b ∈ u) (hne : b ≠ a) :
    b ∈ aoeL a := by
  unfold aoeL
  rw [List.mem_filter]
  refine ⟨List.mem_range.mpr (allUnits_mem_lt u hu b hb), ?_⟩
  simp only [Bool.and_eq_true, decide_eq_true_eq, List.any_eq_true]
  exact ⟨by simpa using hne, u, allUnits_mem_unitsL u hu a ha, by simpa using hb⟩

lemma markup_length (grid : List Nat) : (markup grid).length = 81 := by
  simp [markup]

lemma markup_cellOf (grid : List Nat) {k : Nat} (hk : k < 81) :
    cellOf (markup grid) k =
      if grid.getD k 0 = 0 then
        digits19.filter (fun d => (aoeL k).all (fun j => grid.getD j 0 ≠ d))
      else [grid.getD k 0] := by
  unfold cellOf markup
  have hk2 : k < ((List.range 81).map (fun i =>
      if grid.getD i 0 = 0 then
        digits19.filter (fun d => (aoeL i).all (fun j => grid.getD j 0 ≠ d))
      else [grid.getD i 0])).length := by simpa using hk
  rw [List.getD_eq_getElem _ _ hk2, List.getElem_map]
  simp

lemma mem_digits19_of (c : Nat) (hle : c ≤ 9) (hne : c ≠ 0) : c ∈ digits19 := by
  simp only [digits19, List.mem_cons, List.not_mem_nil, or_false]
  omega

lemma grid_getD_le {grid : List Nat} (hg : ∀ c ∈ grid, c ≤ 9) (k : Nat) :
    grid.getD k 0 ≤ 9 := by
  by_cases hk : k < grid.length
  · rw [List.getD_eq_getElem _ _ hk]
    exact hg _ (List.getElem_mem hk)
  · rw [List.getD_eq_default _ _ (by omega)]
    omega

lemma markup_cell_sub_digits {grid : List Nat} (hg : ∀ c ∈ grid, c ≤ 9) (k : Nat) :
    cellOf (markup grid) k ⊆ digits19 := by
  by_cases hk : k < 81
  · rw [markup_cellOf grid hk]
    split
    · exact fun x hx => List.mem_of_mem_filter hx
    · next hne =>
      intro x hx
      rcases List.mem_singleton.mp hx with rfl
      exact mem_digits19_of _ (grid_getD_le hg k) hne
  · rw [cellOf_eq_nil_of_le (by rw [markup_length]; omega)]
    exact fun x hx => absurd hx (List.not_mem_nil x)

lemma markup_cell_nodup (grid : List Nat) (k : Nat) :
    (cellOf (markup grid) k).Nodup := by
  by_cases hk : k < 81
  · rw [markup_cellOf grid hk]
    split
    · exact List.Nodup.filter _ (by decide)
    · exact List.nodup_singleton _
  · rw [cellOf_eq_nil_of_le (by rw [markup_length]; omega)]
    exact List.nodup_nil

lemma solved_cell {M : Markup} (hs : solved M = true) {k : Nat}
    (hk : k < M.length) : cellOf M k = [(cellOf M k).headD 0] := by
  apply eq_singleton_headD
  unfold solved at hs
  rw [List.all_eq_true] at hs
  have hmem : cellOf M k ∈ M := by
    unfold cellOf
    rw [List.getD_eq_getElem _ _ hk]
    exact List.getElem_mem hk
  simpa using hs _ hmem

lemma digits19_count : ∀ d ∈ digits19, digits19.count d = 1 := by decide

/-- A solved markup satisfying the propagatedness invariant `GOOD`, with
candidates among 1..9, places each digit exactly once in every unit. -/
lemma units_count_of_good_solved {M : Markup} (hlen : M.length = 81)
    (hsolved : solved M = true) (hgood : GOOD M)
    (hsub : ∀ k, cellOf M k ⊆ digits19) :
    ∀ u ∈ allUnitsL, ∀ d ∈ digits19,
      (u.map (fun j => (cellOf M j).headD 0)).count d = 1 := by
  intro u hu d hd
  have hlu := (allUnits_len_nodup u hu).1
  have hnd := (allUnits_len_nodup u hu).2
  have hcell : ∀ j ∈ u, cellOf M j = [(cellOf M j).headD 0] := by
    intro j hj
    exact solved_cell hsolved (by rw [hlen]; exact allUnits_mem_lt u hu j hj)
  have hvals_nodup : (u.map (fun j => (cellOf M j).headD 0)).Nodup := by
    refine List.Nodup.map_on ?_ hnd
    intro x hx y hy hexy
    by_contra hne
    have hyx : y ∈ aoeL x := mem_aoeL_of_sameUnit hu hx hy (fun hc => hne hc.symm)
    have hlx : (cellOf M x).length = 1 := by rw [hcell x hx]; rfl
    have := hgood x (allUnits_mem_lt u hu x hx) hlx y hyx
    apply this
    rw [hexy, hcell y hy]
    exact List.mem_singleton.mpr rfl
  have hvals_sub : (u.map (fun j => (cellOf M j).headD 0)) ⊆ digits19 := by
    intro x hx
    rw [List.mem_map] at hx
    obtain ⟨j, hj, rfl⟩ := hx
    apply hsub j
    rw [hcell j hj]
    exact List.mem_singleton.mpr rfl
  have hperm : (u.map (fun j => (cellOf M j).headD 0)).Perm digits19 := by
    apply (hvals_nodup.subperm hvals_sub).perm_of_length_le
    rw [List.length_map, hlu]
    rfl
  rw [hperm.count_eq d]
  exact digits19_count d hd

/-! ## Concrete boards -/

/-- The fully blank board: 81 `'0'` characters. -/
def blankBoard : List Nat := List.replicate 81 0

/-- The board of 81 `'5'` characters: every unit contains the fixed digit
5 nine times. -/
def board5s : List Nat := List.replicate 81 5

/-- A complete, valid sudoku grid (the solution of a classic puzzle),
used as a witness input. -/
def solvedGrid : List Nat :=
  [4,8,3,9,2,1,6,5,7,
   9,6,7,3,4,5,8,2,1,
   2,5,1,8,7,6,4,9,3,
   5,4,8,1,3,2,9,7,6,
   7,2,9,5,6,4,1,3,8,
   1,3,6,7,9,8,2,4,5,
   3,7,2,6,8,9,5,1,4,
   8,1,4,2,5,3,7,6,9,
   6,9,5,4,1,7,3,8,2]

/-- Well-formed candidate sets: non-empty and within 1..9 on all 81
squares. -/
def WFcells (m : Markup) : Prop :=
  ∀ k < 81, cellOf m k ≠ [] ∧ cellOf m k ⊆ digits19

instance (m : Markup) : Decidable (WFcells m) := by
  unfold WFcells; infer_instance

lemma WFcells_of_shrinks {m m2 : Markup} (hwf : WFcells m) (hs : Shrinks m m2) :
    WFcells m2 :=
  fun k hk => ⟨hs.2.2 k (hwf k hk).1, fun _ hx => (hwf k hk).2 (hs.subset k hx)⟩

lemma two_le_count_map {u : List Nat} {i j d : Nat} (f : Nat → Nat)
    (hi : i ∈ u) (hj : j ∈ u) (hij : i ≠ j)
    (hfi : f i = d) (hfj : f j = d) : 2 ≤ (u.map f).count d := by
  have hj2 : j ∈ u.erase i := (List.mem_erase_of_ne (fun hc => hij hc.symm)).mpr hj
  have hperm : (u.map f).Perm ((i :: j :: (u.erase i).erase j).map f) :=
    List.Perm.map f ((List.perm_cons_erase hi).trans
      (List.Perm.cons i (List.perm_cons_erase hj2)))
  rw [hperm.count_eq d]
  simp only [List.map_cons, List.count_cons, hfi, hfj]
  simp

/-! ## The claims -/

/-- C7: eliminating a value that is not among a square's candidates is a
no-op: `eliminate` returns the markup unchanged. -/
theorem eliminate_noop_of_not_candidate (m : Markup) (i v : Nat)
    (h : v ∉ cellOf m i) : eliminate m i v = .ok m := by
  unfold eliminate
  rw [eliminateF, if_neg h]

/-- Witness for C7 at a concrete markup. -/
theorem eliminate_noop_of_not_candidate_witness :
    5 ∉ cellOf [[1, 2], [3]] 0 ∧ eliminate [[1, 2], [3]] 0 5 = .ok [[1, 2], [3]] :=
  ⟨by decide, eliminate_noop_of_not_candidate [[1, 2], [3]] 0 5 (by decide)⟩

/-- C10: successful `eliminate` and `assign` only remove candidates: every
square's candidate set in the result is a subset of what it was, and the
number of squares is unchanged. -/
theorem propagation_never_adds_candidates :
    (∀ (m : Markup) (i v : Nat) (m2 : Markup), eliminate m i v = .ok m2 →
      m2.length = m.length ∧ ∀ k, cellOf m2 k ⊆ cellOf m k) ∧
    (∀ (m : Markup) (i v : Nat) (m2 : Markup), assign m i v = .ok m2 →
      m2.length = m.length ∧ ∀ k, cellOf m2 k ⊆ cellOf m k) :=
  ⟨fun _ _ _ _ h => ⟨(shrinks_eliminate h).1, fun k => (shrinks_eliminate h).subset k⟩,
   fun _ _ _ _ h => ⟨(shrinks_assign h).1, fun k => (shrinks_assign h).subset k⟩⟩

/-- Witness for C10: a concrete successful elimination on the all-candidate
markup shrinks it pointwise. -/
theorem propagation_never_adds_candidates_witness :
    ((List.replicate 81 digits19 : Markup).set 0 [2, 3, 4, 5, 6, 7, 8, 9]).length =
      (List.replicate 81 digits19 : Markup).length ∧
    ∀ k, cellOf ((List.replicate 81 digits19 : Markup).set 0 [2, 3, 4, 5, 6, 7, 8, 9]) k ⊆
      cellOf (List.replicate 81 digits19 : Markup) k :=
  propagation_never_adds_candidates.1 (List.replicate 81 digits19) 0 1
    ((List.replicate 81 digits19 : Markup).set 0 [2, 3, 4, 5, 6, 7, 8, 9]) (by decide)

/-- C8: starting from a markup whose 81 candidate sets are non-empty
subsets of 1..9, every markup returned by `eliminate`, `assign` or `solve`
again has all candidate sets non-empty subsets of 1..9 (an emptied set
forces the FAIL result instead). -/
theorem candidate_sets_stay_nonempty :
    (∀ (m : Markup) (i v : Nat) (m2 : Markup), WFcells m →
      eliminate m i v = .ok m2 → WFcells m2) ∧
    (∀ (m : Markup) (i v : Nat) (m2 : Markup), WFcells m →
      assign m i v = .ok m2 → WFcells m2) ∧
    (∀ (m M : Markup), WFcells m → solve (some m) = .found M → WFcells M) :=
  ⟨fun _ _ _ _ hwf h => WFcells_of_shrinks hwf (shrinks_eliminate h),
   fun _ _ _ _ hwf h => WFcells_of_shrinks hwf (shrinks_assign h),
   fun _ _ hwf h => WFcells_of_shrinks hwf (solve_found_bundle h).2.1⟩

/-- Witness for C8 at a concrete successful elimination. -/
theorem candidate_sets_stay_nonempty_witness :
    WFcells ((List.replicate 81 digits19 : Markup).set 1 [1, 2, 3, 4, 6, 7, 8, 9]) :=
  candidate_sets_stay_nonempty.1 (List.replicate 81 digits19) 1 5
    ((List.replicate 81 digits19 : Markup).set 1 [1, 2, 3, 4, 6, 7, 8, 9])
    (by decide) (by decide)

/-- C9: the solver terminates.  `eliminate` and `assign` (at the fuel
bounds they are defined with) never exhaust their fuel on boards of at
most 81 squares; the search needs fuel no larger than the number of
undetermined squares plus one, because each successful `assign` of the
branch loop strictly decreases the number of undetermined squares. -/
theorem solver_recursion_terminates :
    (∀ (m : Markup) (i v : Nat), m.length ≤ 81 → eliminate m i v ≠ .timeout) ∧
    (∀ (m : Markup) (i v : Nat), m.length ≤ 81 → assign m i v ≠ .timeout) ∧
    (∀ (m : Markup) (f : Nat), m.length = 81 → (∀ k < 81, (cellOf m k).Nodup) →
      undetCount m < f → solveF f (some m) ≠ .timeout) ∧
    (∀ (m : Markup) (i v : Nat) (m2 : Markup), i < 81 → v ∈ cellOf m i →
      2 ≤ (cellOf m i).length → (cellOf m i).Nodup →
      assign m i v = .ok m2 → undetCount m2 < undetCount m) :=
  ⟨fun _ i v h => eliminate_ne_timeout h i v,
   fun _ i v h => assign_ne_timeout h i v,
   fun m f h81 hnd hf => nt_solveF f m h81 hnd hf,
   fun _ _ _ _ hi hv hlen hnd h => undetCount_lt_of_assign h hv hlen hnd hi⟩

/-- Witness for C9 at concrete inputs: no timeout on the all-candidate
markup, and a concrete assign that determines one square. -/
theorem solver_recursion_terminates_witness :
    eliminate (List.replicate 81 digits19) 0 1 ≠ .timeout ∧
    assign (List.replicate 81 digits19) 0 1 ≠ .timeout ∧
    solveF 82 (some (List.replicate 81 digits19)) ≠ .timeout ∧
    undetCount ([2] :: List.replicate 80 [1]) <
      undetCount ([1, 2] :: List.replicate 80 [1]) :=
  ⟨solver_recursion_terminates.1 (List.replicate 81 digits19) 0 1 (by decide),
   solver_recursion_terminates.2.1 (List.replicate 81 digits19) 0 1 (by decide),
   solver_recursion_terminates.2.2.1 (List.replicate 81 digits19) 82
     (by decide) (by decide) (by decide),
   solver_recursion_terminates.2.2.2 ([1, 2] :: List.replicate 80 [1]) 0 2
     ([2] :: List.replicate 80 [1]) (by decide) (by decide) (by decide) (by decide)
     (by decide)⟩

/-- C1: on the fully blank board the minimum-candidate scan of `solve`
never binds a square (every undetermined square has all nine candidates,
and the scan only accepts sizes strictly between 1 and the initial bound
9), so `solve` crashes — the Python source raises `NameError` at
`m[min_i]` — instead of returning a solution. -/
theorem solve_blank_board_crashes :
    scanMRV (markup blankBoard) 0 9 none = none ∧
    solve (some (markup blankBoard)) = SRes.crash := by
  exact ⟨by decide, by decide⟩

/-- C2: `eliminate` and `assign` are total on boards of at most 81 squares
(they never exhaust their fuel, mirroring the source's terminating
recursion), but `solve` is not exception-free: on the markup whose squares
all hold all nine candidates it crashes (the `NameError` of the source)
rather than returning a markup or FAIL. -/
theorem propagation_total_but_solve_raises :
    (∀ (m : Markup) (i v : Nat), m.length ≤ 81 →
      eliminate m i v ≠ .timeout ∧ assign m i v ≠ .timeout) ∧
    solve (some (List.replicate 81 digits19 : Markup)) = SRes.crash :=
  ⟨fun _ i v h => ⟨eliminate_ne_timeout h i v, assign_ne_timeout h i v⟩, by decide⟩

/-- Witness for C2 at a concrete markup. -/
theorem propagation_total_but_solve_raises_witness :
    eliminate (List.replicate 81 digits19) 3 7 ≠ .timeout ∧
    solve (some (List.replicate 81 digits19 : Markup)) = SRes.crash :=
  ⟨(propagation_total_but_solve_raises.1 (List.replicate 81 digits19) 3 7 (by decide)).1,
   propagation_total_but_solve_raises.2⟩

/-- C3 counterexample: the all-fives board has the same fixed digit twice
in a unit, yet `solve(markup(board))` does not return FAIL — the markup is
already all singletons, `solved` only checks lengths, and the markup is
returned as-is. -/
theorem solve_dup_board_counterexample :
    (∃ u ∈ allUnitsL, ∃ i ∈ u, ∃ j ∈ u, i ≠ j ∧ board5s.getD i 0 ≠ 0 ∧
      board5s.getD j 0 = board5s.getD i 0) ∧
    solve (some (markup board5s)) ≠ SRes.fail := by
  exact ⟨by decide, by decide⟩

/-- C3 (amended): for a board with the same fixed digit in two squares of
a unit, `solve(markup(board))` never returns a valid solution: if it
returns a markup at all, both squares still hold that digit, so the digit
occurs at least twice in the unit. -/
theorem solve_dup_board_keeps_duplicate (grid : List Nat) (u : List Nat)
    (i j : Nat) (hu : u ∈ allUnitsL) (hi : i ∈ u) (hj : j ∈ u) (hij : i ≠ j)
    (hfix : grid.getD i 0 ≠ 0) (heq : grid.getD j 0 = grid.getD i 0)
    (M : Markup) (h : solve (some (markup grid)) = .found M) :
    cellOf M i = [grid.getD i 0] ∧ cellOf M j = [grid.getD i 0] ∧
    2 ≤ (u.map (fun k => (cellOf M k).headD 0)).count (grid.getD i 0) := by
  have hi81 : i < 81 := allUnits_mem_lt u hu i hi
  have hj81 : j < 81 := allUnits_mem_lt u hu j hj
  have hci : cellOf M i = [grid.getD i 0] := by
    apply solve_found_singStay h
    rw [markup_cellOf grid hi81, if_neg hfix]
  have hcj : cellOf M j = [grid.getD i 0] := by
    apply solve_found_singStay h
    rw [markup_cellOf grid hj81, if_neg (by rw [heq]; exact hfix), heq]
  refine ⟨hci, hcj, ?_⟩
  apply two_le_count_map _ hi hj hij
  · rw [hci]; rfl
  · rw [hcj]; rfl

/-- Witness for the amended C3 on the all-fives board: row 0 holds the
digit 5 in squares 0 and 1 of any returned markup. -/
theorem solve_dup_board_keeps_duplicate_witness :
    cellOf (List.replicate 81 [5] : Markup) 0 = [board5s.getD 0 0] ∧
    cellOf (List.replicate 81 [5] : Markup) 1 = [board5s.getD 0 0] ∧
    2 ≤ ((rowsL.getD 0 []).map
        (fun k => (cellOf (List.replicate 81 [5] : Markup) k).headD 0)).count
      (board5s.getD 0 0) :=
  solve_dup_board_keeps_duplicate board5s (rowsL.getD 0 []) 0 1
    (by decide) (by decide) (by decide) (by decide) (by decide) (by decide)
    (List.replicate 81 [5]) (by decide)

/-- C4 counterexample: `solve(markup(board))` on the all-fives board
returns a markup in which row 0 contains the digit 5 nine times — a
returned markup need not satisfy the unit constraints. -/
theorem solve_unit_violation_counterexample :
    solve (some (markup board5s)) = .found (List.replicate 81 [5]) ∧
    rowsL.getD 0 [] ∈ allUnitsL ∧
    ((rowsL.getD 0 []).map
        (fun k => (cellOf (List.replicate 81 [5] : Markup) k).headD 0)).count 5 ≠ 1 := by
  exact ⟨by decide, by decide, by decide⟩

/-- C4 (amended): if every already-determined square of `markup(board)`
has its digit absent from all of its peers' candidate sets (`GOOD`, which
holds in particular when the fixed digits are duplicate-free and no blank
square is already forced), then any markup returned by
`solve(markup(board))` places each digit 1..9 exactly once in every one of
the 27 units. -/
theorem solve_sound_of_propagated_input (grid : List Nat)
    (hg : ∀ c ∈ grid, c ≤ 9) (hgood : GOOD (markup grid)) (M : Markup)
    (h : solve (some (markup grid)) = .found M) :
    ∀ u ∈ allUnitsL, ∀ d ∈ digits19,
      (u.map (fun k => (cellOf M k).headD 0)).count d = 1 := by
  obtain ⟨hsolved, hshr, hgoodp⟩ := solve_found_bundle h
  have hlen : M.length = 81 := by rw [hshr.1, markup_length]
  have hgM : GOOD M :=
    (GOOD_iff_GOODP M).mpr (hgoodp _ ((GOOD_iff_GOODP _).mp hgood))
  have hsub : ∀ k, cellOf M k ⊆ digits19 :=
    fun k x hx => markup_cell_sub_digits hg k (hshr.subset k hx)
  exact units_count_of_good_solved hlen hsolved hgM hsub

/-- Witness for the amended C4 on a complete valid grid. -/
theorem solve_sound_of_propagated_input_witness :
    ((rowsL.getD 0 []).map
        (fun k => (cellOf ((solvedGrid.map (fun d => [d])) : Markup) k).headD 0)).count 1 = 1 :=
  solve_sound_of_propagated_input solvedGrid (by decide) (by decide)
    (solvedGrid.map (fun d => [d])) (by decide) (rowsL.getD 0 []) (by decide) 1 (by decide)

/-- C5: a square fixed in the input board keeps exactly that digit as its
single candidate in any markup returned by `solve(markup(board))`. -/
theorem solve_preserves_fixed_digits (grid : List Nat) (i : Nat) (hi : i < 81)
    (hfix : grid.getD i 0 ≠ 0) (M : Markup)
    (h : solve (some (markup grid)) = .found M) :
    cellOf M i = [grid.getD i 0] := by
  apply solve_found_singStay h
  rw [markup_cellOf grid hi, if_neg hfix]

/-- Witness for C5 on a complete valid grid. -/
theorem solve_preserves_fixed_digits_witness :
    cellOf ((solvedGrid.map (fun d => [d])) : Markup) 0 = [solvedGrid.getD 0 0] :=
  solve_preserves_fixed_digits solvedGrid 0 (by decide) (by decide)
    (solvedGrid.map (fun d => [d])) (by decide)
